import Mathlib

/-!
Shallow embedding of the course-recommendation system
(`simple_rag_system.py` and `rag_system.py`): course records, the lexical
matcher (tokenization, scoring, stable ranking), the result
post-processing of the embedding matcher, filtering, recommendation composition, error
handling, and a heap-level model of the query operations used to state
frame (non-mutation) properties.
-/

namespace CourseBot

/-- Course record, from the data model used by `create_course_text`,
`get_course_by_id`, `filter_courses` (fields `id`, `title`, `description`,
`category`, `difficulty`, `skills`, `prerequisites`). -/
structure Course where
  id : String
  title : String
  description : String
  category : String
  difficulty : String
  skills : List String
  prerequisites : String
deriving DecidableEq, Repr, Inhabited

/-- Python `str.lower()` on the character sequence (ASCII-relevant
fragment); defined by structural recursion so that concrete instances
evaluate. -/
def pyLower (s : String) : String :=
  String.mk (s.toList.map Char.toLower)

/-- Embedding of `create_course_text` (simple_rag_system.py lines 38-56): join the
searchable fields with single spaces and lowercase the result. -/
def create_course_text (c : Course) : String :=
  pyLower (String.intercalate " "
    [c.title, c.description, c.category, c.difficulty,
     String.intercalate " " c.skills, c.prerequisites])

/-- A word character for the regex `\w` (ASCII fragment: letters, digits,
underscore). -/
def isWordChar (c : Char) : Bool :=
  c.isAlphanum || c = '_'

/-- Maximal runs of word characters, mirroring findall of `\b\w+\b`:
the accumulator holds the current run reversed. -/
def wordRunsAux : List Char → List Char → List (List Char)
  | [], acc => if acc.isEmpty then [] else [acc.reverse]
  | c :: cs, acc =>
      if isWordChar c then wordRunsAux cs (c :: acc)
      else if acc.isEmpty then wordRunsAux cs []
      else acc.reverse :: wordRunsAux cs []

/-- Tokenization: findall of `\b\w+\b` over the lowercased string, as a
list of words. -/
def findWords (s : String) : List String :=
  (wordRunsAux (pyLower s).toList []).map fun cs => String.mk cs

/-- Python `p in s` on strings: `p` occurs as a contiguous substring. -/
def substrB (p : List Char) : List Char → Bool
  | [] => p.isPrefixOf []
  | c :: t => p.isPrefixOf (c :: t) || substrB p t

/-- Embedding of `simple_search_score` (simple_rag_system.py lines 58-83): token-set
overlap fraction, +0.3 bonus for a contiguous substring match, clamped
to 1.0; 0 when the query has no tokens.  Scores are exact rationals. -/
def simple_search_score (query course_text : String) : ℚ :=
  let qw := (findWords query).dedup
  let cw := findWords course_text
  if qw.isEmpty then 0
  else
    let common := qw.filter fun w => w ∈ cw
    let base : ℚ := (common.length : ℚ) / (qw.length : ℚ)
    let boosted : ℚ :=
      if substrB (pyLower query).toList (pyLower course_text).toList
      then base + 3/10 else base
    min boosted 1

/-- A scored search result: a copy of a course record carrying
`similarity_score` and `rank` (simple_rag_system.py lines 104-113). -/
structure SearchResult where
  course : Course
  similarity_score : ℚ
  rank : Nat
deriving DecidableEq, Repr

/-- The scored candidate list built by the loop of `search_courses`
(simple_rag_system.py lines 97-106): each course paired with its score,
in store order, keeping only positive scores. -/
def scoredOf (courses : List Course) (query : String) : List (Course × ℚ) :=
  courses.filterMap fun c =>
    let s := simple_search_score query (create_course_text c)
    if 0 < s then some (c, s) else none

/-- Stable descending insertion: `x` is placed before the first element
whose score is ≤ its own, so among equal scores earlier elements stay
first. -/
def insertDesc (x : Course × ℚ) : List (Course × ℚ) → List (Course × ℚ)
  | [] => [x]
  | y :: ys => if x.2 < y.2 then y :: insertDesc x ys else x :: y :: ys

/-- The stable descending sort by score: extensionally the behaviour of
Python list.sort keyed on the similarity score with reverse=True,
which is documented to be stable. -/
def sortDesc : List (Course × ℚ) → List (Course × ℚ)
  | [] => []
  | x :: xs => insertDesc x (sortDesc xs)

/-- Embedding of `search_courses` (simple_rag_system.py lines 85-119): score every
course, keep positive scores, stable-sort descending, truncate to
`top_k` and attach 1-based ranks. -/
def search_courses (courses : List Course) (query : String) (top_k : Nat) :
    List SearchResult :=
  ((sortDesc (scoredOf courses query)).take top_k).enum.map fun p =>
    ⟨p.2.1, p.2.2, p.1 + 1⟩

/-- Embedding of `get_course_by_id` (simple_rag_system.py lines 121-134): linear scan
returning the first course with the given id, else `none`. -/
def get_course_by_id (courses : List Course) (cid : String) : Option Course :=
  match courses with
  | [] => none
  | c :: rest => if c.id = cid then some c else get_course_by_id rest cid

/-- Python truthiness of an optional string argument (`if category:`):
`None` and `""` are falsy. -/
def truthyStr : Option String → Bool
  | none => false
  | some s => !(s.isEmpty)

/-- Python truthiness of an optional list argument (`if skills:`):
`None` and `[]` are falsy. -/
def truthyList : Option (List String) → Bool
  | none => false
  | some l => !(l.isEmpty)

/-- Embedding of `filter_courses` (simple_rag_system.py lines 136-167): successively
restrict by case-insensitive category match, difficulty match, and
skill overlap (any course skill whose lowercase form is in the
lowercased requested list); falsy criteria are skipped. -/
def filter_courses (courses : List Course)
    (category difficulty : Option String)
    (skills : Option (List String)) : List Course :=
  let fc := courses
  let fc := if truthyStr category then
      fc.filter fun c => pyLower c.category = pyLower (category.getD "")
    else fc
  let fc := if truthyStr difficulty then
      fc.filter fun c => pyLower c.difficulty = pyLower (difficulty.getD "")
    else fc
  if truthyList skills then
    let skills_lower := (skills.getD []).map pyLower
    fc.filter fun c => c.skills.any fun sk => pyLower sk ∈ skills_lower
  else fc

/-- The difficulty levels recognised by the skill-level post-filter
(simple_rag_system.py line 199). -/
def skillLevels : List String := ["beginner", "intermediate", "advanced"]

/-- The combined query of `get_recommendations` (simple_rag_system.py
lines 186-193): interests, then background if non-empty, then skill
level if non-empty, space-joined. -/
def recQuery (user_interests user_background skill_level : String) : String :=
  String.intercalate " "
    ([user_interests]
      ++ (if user_background.isEmpty then [] else [user_background])
      ++ (if skill_level.isEmpty then [] else [skill_level]))

/-- Embedding of `get_recommendations` (simple_rag_system.py lines 169-204): search
with the combined query for `2 * top_k` candidates, hard-filter by
difficulty when the skill level is recognised, truncate to `top_k`. -/
def get_recommendations (courses : List Course)
    (user_interests user_background skill_level : String) (top_k : Nat) :
    List SearchResult :=
  let query := recQuery user_interests user_background skill_level
  let recs := search_courses courses query (top_k * 2)
  let recs :=
    if !skill_level.isEmpty && (pyLower skill_level ∈ skillLevels) then
      recs.filter fun r => pyLower r.course.difficulty = pyLower skill_level
    else recs
  recs.take top_k

/-! ### Embedding matcher result post-processing (rag_system.py) -/

/-- Python list indexing `l[i]`: non-negative indices are positions,
negative indices count from the end, out-of-range raises (here `none`). -/
def pyGet {α : Type} (l : List α) (i : Int) : Option α :=
  if 0 ≤ i then l.get? i.toNat
  else if (-i).toNat ≤ l.length then l.get? (l.length - (-i).toNat)
  else none

/-- A hit returned by the embedding matcher: course copy plus inner
product score and 1-based rank (rag_system.py lines 112-118). -/
structure EmbedHit where
  course : Course
  similarity_score : ℚ
  rank : Nat
deriving DecidableEq, Repr

/-- The result-preparation loop of `CourseRAGSystem.search_courses`
(rag_system.py lines 112-118) over the `(score, idx)` pairs returned by
the nearest-neighbor index: positions with `idx < len(courses)` are
dereferenced by Python indexing (an out-of-range access raises, here
`Except.error`), larger positions are skipped. -/
def faissBuild (courses : List Course) :
    List (Nat × ℚ × Int) → Except String (List EmbedHit)
  | [] => Except.ok []
  | (i, score, idx) :: rest =>
      if idx < (courses.length : Int) then
        match pyGet courses idx with
        | none => Except.error "IndexError"
        | some c => do
            let tail ← faissBuild courses rest
            Except.ok (⟨c, score, i + 1⟩ :: tail)
      else faissBuild courses rest

/-- Embedding of `CourseRAGSystem.search_courses` after the index query (rag_system.py
lines 103-124): build hits from the raw index output; the surrounding
`try/except` turns any raised error into the empty list. -/
def embed_search_courses (courses : List Course) (hits : List (ℚ × Int)) :
    List EmbedHit :=
  match faissBuild courses hits.enum with
  | Except.ok r => r
  | Except.error _ => []

/-! ### Construction-time and query-time error handling -/

/-- The possible states of the course data file as seen by
`load_courses`: absent, unparseable JSON, or parsed JSON that may or may
not carry a `courses` key. -/
inductive CourseFile
  | missing
  | malformed
  | parsed (courses : Option (List Course))
deriving DecidableEq, Repr

/-- Embedding of `load_courses` (simple_rag_system.py lines 24-36, identical in
rag_system.py): a missing file and malformed JSON are logged and
re-raised; a parsed document without a `courses` key raises `KeyError`,
which the handler does not catch; otherwise the store is the `courses`
value. -/
def load_courses : CourseFile → Except String (List Course)
  | CourseFile.missing => Except.error "FileNotFoundError"
  | CourseFile.malformed => Except.error "JSONDecodeError"
  | CourseFile.parsed none => Except.error "KeyError"
  | CourseFile.parsed (some cs) => Except.ok cs

/-- The `try/except` skeleton of `search_courses` (simple_rag_system.py
lines 96-119): a normal body result is returned as is, any raised
exception is logged and replaced by the empty list. -/
def search_courses_guarded (body : Except String (List SearchResult)) :
    List SearchResult :=
  match body with
  | Except.ok r => r
  | Except.error _ => []

/-! ### Heap model of the query operations

Python course records are dict references held in `self.courses`.  To
state that query operations never mutate stored records we model the
heap explicitly: a cell is a course dict possibly extended with the
`similarity_score` and `rank` keys, the heap is a list of cells
addressed by position, and the store is a list of addresses.  `copy()`
allocates a fresh cell at the end of the heap; key assignment writes a
cell in place. -/

/-- A course dict on the heap: the base record plus the two keys that
`search_courses` may attach. -/
structure Cell where
  course : Course
  similarity_score : Option ℚ
  rank : Option Nat
deriving DecidableEq, Repr, Inhabited

/-- The scoring loop of `search_courses` at heap level (simple
lines 99-106): read each stored cell, score its text, and for positive
scores allocate a copy carrying `similarity_score`; returns the final
heap and the `(address, score)` candidate list in store order. -/
def scoreAlloc (query : String) :
    List Nat → List Cell → List Cell × List (Nat × ℚ)
  | [], h => (h, [])
  | r :: rs, h =>
      let cell := h.getD r default
      let s := simple_search_score query (create_course_text cell.course)
      if 0 < s then
        let h1 := h ++ [{ cell with similarity_score := some s }]
        let rec1 := scoreAlloc query rs h1
        (rec1.1, (h.length, s) :: rec1.2)
      else scoreAlloc query rs h

/-- Stable descending insertion on `(address, score)` candidates,
mirroring `insertDesc`. -/
def insertDescA (x : Nat × ℚ) : List (Nat × ℚ) → List (Nat × ℚ)
  | [] => [x]
  | y :: ys => if x.2 < y.2 then y :: insertDescA x ys else x :: y :: ys

/-- Stable descending sort on `(address, score)` candidates. -/
def sortDescA : List (Nat × ℚ) → List (Nat × ℚ)
  | [] => []
  | x :: xs => insertDescA x (sortDescA xs)

/-- The rank-assignment loop (simple lines 112-113): write
`rank := i + 1` into the cell at each of the first addresses. -/
def writeRanks : List (Nat × ℚ) → Nat → List Cell → List Cell
  | [], _, h => h
  | (r, _) :: rest, i, h =>
      let cell := h.getD r default
      writeRanks rest (i + 1) (h.set r { cell with rank := some (i + 1) })

/-- Heap-level `search_courses`: score and copy, stable-sort the
copies by score, write ranks into the first `top_k` copies, and return
the final heap with the addresses of the returned results. -/
def search_courses_heap (h : List Cell) (store : List Nat)
    (query : String) (top_k : Nat) : List Cell × List Nat :=
  let p1 := scoreAlloc query store h
  let sorted := sortDescA p1.2
  let out := sorted.take top_k
  (writeRanks out 0 p1.1, out.map Prod.fst)

/-- Heap-level `get_recommendations` (simple lines 186-204): the only
heap effects are those of the inner `search_courses` call; the
skill-level filter and truncation are reads. -/
def get_recommendations_heap (h : List Cell) (store : List Nat)
    (user_interests user_background skill_level : String) (top_k : Nat) :
    List Cell × List Nat :=
  let query := recQuery user_interests user_background skill_level
  let p := search_courses_heap h store query (top_k * 2)
  let refs :=
    if !skill_level.isEmpty && (pyLower skill_level ∈ skillLevels) then
      p.2.filter fun r =>
        pyLower (p.1.getD r default).course.difficulty = pyLower skill_level
    else p.2
  (p.1, refs.take top_k)

/-- Heap-level `get_course_by_id`: a pure scan of the stored cells;
the source performs no writes. -/
def get_course_by_id_heap (h : List Cell) (store : List Nat)
    (cid : String) : List Cell × Option Nat :=
  (h, store.find? fun r => (h.getD r default).course.id = cid)

/-- Heap-level `filter_courses`: list comprehensions over a copy of
the store list; the source performs no writes to course cells. -/
def filter_courses_heap (h : List Cell) (store : List Nat)
    (category difficulty : Option String)
    (skills : Option (List String)) : List Cell × List Nat :=
  let fc := store
  let fc := if truthyStr category then
      fc.filter fun r =>
        pyLower (h.getD r default).course.category = pyLower (category.getD "")
    else fc
  let fc := if truthyStr difficulty then
      fc.filter fun r =>
        pyLower (h.getD r default).course.difficulty = pyLower (difficulty.getD "")
    else fc
  if truthyList skills then
    let skills_lower := (skills.getD []).map pyLower
    (h, fc.filter fun r =>
      (h.getD r default).course.skills.any fun sk => pyLower sk ∈ skills_lower)
  else (h, fc)

/-- A concrete Advanced course whose text mentions both query terms of
the running example. -/
def exCourse1 : Course :=
  ⟨"c1", "alpha beginner guide", "covers alpha", "CS", "Advanced",
   ["alpha"], "none"⟩

/-- A concrete Beginner course matching only one query term. -/
def exCourse2 : Course :=
  ⟨"c2", "basics", "intro", "CS", "Beginner", ["basics"], "none"⟩

/-! ### Properties of the stable descending sort -/

theorem mem_insertDesc {x y : Course × ℚ} {l : List (Course × ℚ)} :
    y ∈ insertDesc x l ↔ y = x ∨ y ∈ l := by
  induction l with
  | nil => simp [insertDesc]
  | cons z zs ih =>
      by_cases h : x.2 < z.2
      · simp [insertDesc, h, ih]
        tauto
      · simp [insertDesc, h]

theorem mem_sortDesc {y : Course × ℚ} {l : List (Course × ℚ)} :
    y ∈ sortDesc l ↔ y ∈ l := by
  induction l with
  | nil => simp [sortDesc]
  | cons z zs ih => simp [sortDesc, mem_insertDesc, ih]

/-- Inserting preserves descending sortedness. -/
theorem pairwise_insertDesc {x : Course × ℚ} {l : List (Course × ℚ)}
    (h : l.Pairwise fun a b => b.2 ≤ a.2) :
    (insertDesc x l).Pairwise fun a b => b.2 ≤ a.2 := by
  induction l with
  | nil => simp [insertDesc]
  | cons z zs ih =>
      rw [List.pairwise_cons] at h
      by_cases hx : x.2 < z.2
      · rw [insertDesc, if_pos hx, List.pairwise_cons]
        refine ⟨?_, ih h.2⟩
        intro a ha
        rcases mem_insertDesc.mp ha with rfl | ha
        · exact le_of_lt hx
        · exact h.1 a ha
      · rw [insertDesc, if_neg hx, List.pairwise_cons]
        push_neg at hx
        refine ⟨?_, List.pairwise_cons.mpr h⟩
        intro a ha
        rcases List.mem_cons.mp ha with rfl | ha
        · exact hx
        · exact le_trans (h.1 a ha) hx

theorem pairwise_sortDesc (l : List (Course × ℚ)) :
    (sortDesc l).Pairwise fun a b => b.2 ≤ a.2 := by
  induction l with
  | nil => simp [sortDesc]
  | cons z zs ih => exact pairwise_insertDesc ih

/-- Elements not selected by `p` do not disturb filtering through an
insertion. -/
theorem filter_insertDesc_neg {x : Course × ℚ} {l : List (Course × ℚ)}
    {p : Course × ℚ → Bool} (hx : p x = false) :
    (insertDesc x l).filter p = l.filter p := by
  induction l with
  | nil => simp [insertDesc, hx]
  | cons z zs ih =>
      by_cases h : x.2 < z.2
      · rw [insertDesc, if_pos h]
        by_cases hz : p z
        · simp [List.filter_cons, hz, ih]
        · simp [List.filter_cons, hz, ih]
      · rw [insertDesc, if_neg h]
        simp [List.filter_cons, hx]

/-- Inserting an element of score `s` puts it in front of all other
score-`s` elements. -/
theorem filter_insertDesc_score {x : Course × ℚ} {l : List (Course × ℚ)}
    {s : ℚ} (hx : x.2 = s) :
    (insertDesc x l).filter (fun y => y.2 = s)
      = x :: l.filter (fun y => y.2 = s) := by
  induction l with
  | nil => simp [insertDesc, hx]
  | cons z zs ih =>
      by_cases h : x.2 < z.2
      · have hz : ¬ (z.2 = s) := by
          intro hzs
          rw [hx] at h
          rw [hzs] at h
          exact lt_irrefl s h
        rw [insertDesc, if_pos h]
        simp only [List.filter_cons]
        simp [hz, ih]
      · rw [insertDesc, if_neg h]
        simp [List.filter_cons, hx]

/-- The stable sort keeps equal-score elements in their original
order. -/
theorem sortDesc_filter_score (l : List (Course × ℚ)) (s : ℚ) :
    (sortDesc l).filter (fun y => y.2 = s) = l.filter (fun y => y.2 = s) := by
  induction l with
  | nil => simp [sortDesc]
  | cons z zs ih =>
      rw [sortDesc]
      by_cases hz : z.2 = s
      · rw [filter_insertDesc_score hz, ih]
        simp [List.filter_cons, hz]
      · rw [filter_insertDesc_neg (by simp [hz]), ih]
        simp [List.filter_cons, hz]

theorem sortDesc_length (l : List (Course × ℚ)) :
    (sortDesc l).length = l.length := by
  induction l with
  | nil => simp [sortDesc]
  | cons z zs ih =>
      rw [sortDesc]
      have : ∀ (x : Course × ℚ) (m : List (Course × ℚ)),
          (insertDesc x m).length = m.length + 1 := by
        intro x m
        induction m with
        | nil => simp [insertDesc]
        | cons w ws ihw =>
            by_cases h : x.2 < w.2
            · simp [insertDesc, h, ihw]
            · simp [insertDesc, h]
      simp [this, ih]

/-! ## Claims -/

/-- C3: for every query string and course text, the lexical score is 0
when the query tokenizes to an empty set, and otherwise equals
`min 1 (|Q ∩ C| / |Q| + b)` where `Q`, `C` are the token sets and `b`
is 0.3 exactly when the lowercased query is a contiguous substring of
the lowercased course text; the score always lies in `[0, 1]`. -/
theorem claim_C3 (query course_text : String) :
    ((findWords query).toFinset = ∅ → simple_search_score query course_text = 0)
  ∧ ((findWords query).toFinset ≠ ∅ →
      simple_search_score query course_text =
        min 1
          ((((findWords query).toFinset ∩ (findWords course_text).toFinset).card : ℚ)
              / ((findWords query).toFinset.card : ℚ)
            + (if substrB (pyLower query).toList (pyLower course_text).toList
               then 3/10 else 0)))
  ∧ 0 ≤ simple_search_score query course_text
  ∧ simple_search_score query course_text ≤ 1 := by
  set qws := findWords query with hq
  set cws := findWords course_text with hc
  have hdedupFinset : qws.dedup.toFinset = qws.toFinset := by
    ext x; simp [List.mem_dedup]
  by_cases hempty : qws.dedup.isEmpty
  · have hnil : qws = [] := by
      rw [List.isEmpty_iff] at hempty
      exact (List.dedup_eq_nil qws).mp hempty
    have hsc : simple_search_score query course_text = 0 := by
      unfold simple_search_score
      rw [← hq, ← hc]
      simp [hnil]
    refine ⟨fun _ => hsc, fun hne => absurd ?_ hne, by rw [hsc], by rw [hsc]; norm_num⟩
    rw [(List.toFinset_eq_empty_iff qws)]
    exact hnil
  · have hne : qws.toFinset ≠ ∅ := by
      intro h
      rw [List.toFinset_eq_empty_iff] at h
      simp [h] at hempty
    -- the common-word count is the intersection cardinality
    have hnodup : (qws.dedup.filter fun w => w ∈ cws).Nodup :=
      (List.nodup_dedup qws).filter _
    have hcommon :
        ((qws.dedup.filter fun w => w ∈ cws).length : ℚ)
          = ((qws.toFinset ∩ cws.toFinset).card : ℚ) := by
      have h1 : (qws.dedup.filter fun w => w ∈ cws).length
          = (qws.dedup.filter fun w => w ∈ cws).toFinset.card :=
        (List.toFinset_card_of_nodup hnodup).symm
      have h2 : (qws.dedup.filter fun w => w ∈ cws).toFinset
          = qws.toFinset ∩ cws.toFinset := by
        rw [List.toFinset_filter, hdedupFinset]
        ext x
        simp
      rw [h1, h2]
    have hlen : (qws.dedup.length : ℚ) = (qws.toFinset.card : ℚ) := by
      rw [List.card_toFinset]
    have hsc : simple_search_score query course_text =
        min 1
          (((qws.toFinset ∩ cws.toFinset).card : ℚ) / (qws.toFinset.card : ℚ)
            + (if substrB (pyLower query).toList (pyLower course_text).toList
               then 3/10 else 0)) := by
      unfold simple_search_score
      rw [← hq, ← hc]
      simp only [hempty, Bool.false_eq_true, if_false]
      rw [hcommon, hlen]
      rw [min_comm]
      by_cases hsub : substrB (pyLower query).toList (pyLower course_text).toList
      · rw [if_pos hsub, if_pos hsub]
      · rw [if_neg hsub, if_neg hsub, add_zero]
    refine ⟨fun h => absurd h hne, fun _ => hsc, ?_, ?_⟩
    · rw [hsc]
      apply le_min
      · norm_num
      · apply add_nonneg
        · exact div_nonneg (by positivity) (by positivity)
        · split <;> norm_num
    · rw [hsc]
      exact min_le_left _ _

/-- Witness for C3 at a concrete query and course text. -/
theorem claim_C3_witness :
    simple_search_score "alpha beta" "alpha gamma" =
      min 1
        ((((findWords "alpha beta").toFinset ∩ (findWords "alpha gamma").toFinset).card : ℚ)
            / ((findWords "alpha beta").toFinset.card : ℚ)
          + (if substrB (pyLower "alpha beta").toList (pyLower "alpha gamma").toList
             then 3/10 else 0)) :=
  (claim_C3 "alpha beta" "alpha gamma").2.1 (by decide)

theorem simple_search_score_nonneg (q t : String) :
    0 ≤ simple_search_score q t := by
  unfold simple_search_score
  by_cases h : ((findWords q).dedup).isEmpty
  · simp [h]
  · simp only [h, Bool.false_eq_true, if_false]
    apply le_min
    · split
      · apply add_nonneg
        · exact div_nonneg (by positivity) (by positivity)
        · norm_num
      · exact div_nonneg (by positivity) (by positivity)
    · norm_num

theorem simple_search_score_le_one (q t : String) :
    simple_search_score q t ≤ 1 := by
  unfold simple_search_score
  by_cases h : ((findWords q).dedup).isEmpty
  · simp [h]
  · simp only [h, Bool.false_eq_true, if_false]
    exact min_le_right _ _

/-- A shared query/course token forces a strictly positive score. -/
theorem simple_search_score_pos_of_common {q t w : String}
    (hq : w ∈ findWords q) (ht : w ∈ findWords t) :
    0 < simple_search_score q t := by
  unfold simple_search_score
  have hmem : w ∈ (findWords q).dedup := List.mem_dedup.mpr hq
  have hne : ¬ ((findWords q).dedup).isEmpty := by
    intro h
    rw [List.isEmpty_iff] at h
    rw [h] at hmem
    exact List.not_mem_nil w hmem
  simp only [hne, Bool.false_eq_true, if_false]
  have hcommon : w ∈ (findWords q).dedup.filter fun x => x ∈ findWords t := by
    rw [List.mem_filter]
    exact ⟨hmem, by simpa using ht⟩
  have hlenc : 0 < ((findWords q).dedup.filter fun x => x ∈ findWords t).length :=
    List.length_pos.mpr (List.ne_nil_of_mem hcommon)
  have hlenq : 0 < ((findWords q).dedup).length :=
    List.length_pos.mpr (List.ne_nil_of_mem hmem)
  have hbase : 0 < (((findWords q).dedup.filter fun x => x ∈ findWords t).length : ℚ)
      / (((findWords q).dedup).length : ℚ) := by
    apply div_pos
    · exact_mod_cast hlenc
    · exact_mod_cast hlenq
  apply lt_min
  · split
    · apply lt_of_lt_of_le hbase
      apply le_add_of_nonneg_right
      norm_num
    · exact hbase
  · norm_num

/-- Membership in the scored candidate list. -/
theorem mem_scoredOf {c : Course} {s : ℚ} {courses : List Course} {q : String} :
    (c, s) ∈ scoredOf courses q
      ↔ c ∈ courses ∧ s = simple_search_score q (create_course_text c) ∧ 0 < s := by
  unfold scoredOf
  rw [List.mem_filterMap]
  constructor
  · rintro ⟨a, ha, hif⟩
    by_cases hp : 0 < simple_search_score q (create_course_text a)
    · rw [if_pos hp] at hif
      have h := Option.some.inj hif
      injection h with h1 h2
      subst h1
      exact ⟨ha, h2.symm, h2 ▸ hp⟩
    · rw [if_neg hp] at hif
      simp at hif
  · rintro ⟨hc, rfl, hpos⟩
    exact ⟨c, hc, by rw [if_pos hpos]⟩

/-- The course/score content of the results is the truncated sorted
candidate list. -/
theorem search_map_pair (courses : List Course) (q : String) (k : Nat) :
    (search_courses courses q k).map
        (fun r => (r.course, r.similarity_score))
      = (sortDesc (scoredOf courses q)).take k := by
  unfold search_courses
  rw [List.map_map]
  have : ((fun r : SearchResult => (r.course, r.similarity_score)) ∘
      fun p : Nat × (Course × ℚ) => (⟨p.2.1, p.2.2, p.1 + 1⟩ : SearchResult))
      = Prod.snd := by
    funext p
    simp
  rw [this]
  exact List.enum_map_snd _

theorem search_length (courses : List Course) (q : String) (k : Nat) :
    (search_courses courses q k).length
      = min k (sortDesc (scoredOf courses q)).length := by
  unfold search_courses
  rw [List.length_map, List.enum_length, List.length_take]

/-- Rank fields are the positions `1..N`. -/
theorem search_map_rank (courses : List Course) (q : String) (k : Nat) :
    (search_courses courses q k).map SearchResult.rank
      = List.range' 1 (search_courses courses q k).length := by
  unfold search_courses
  rw [List.map_map, List.length_map, List.enum_length]
  have h1 : (SearchResult.rank ∘
      fun p : Nat × (Course × ℚ) => (⟨p.2.1, p.2.2, p.1 + 1⟩ : SearchResult))
      = fun p => p.1 + 1 := by
    funext p
    simp
  rw [h1]
  have h2 : (fun p : Nat × (Course × ℚ) => p.1 + 1)
      = (fun n => n + 1) ∘ Prod.fst := by
    funext p
    simp
  rw [h2, ← List.map_map, List.enum_map_fst, List.range'_eq_map_range]
  congr 1
  funext n
  omega

/-- C4 (amended): for every store, query and `top_k`, `search_courses`
returns at most `top_k` results whose ranks are the contiguous sequence
1..N, sorted by non-increasing score, each result being a stored course
with its own positive lexical score (≤ 1); equal-score results keep the
original store order; when fewer than `top_k` results are returned every
positively-scoring course is included; and — amended with the hypothesis
`1 ≤ top_k` forced by the counterexample — a query with a token matching
some course yields a non-empty result. -/
theorem claim_C4 (courses : List Course) (query : String) (top_k : Nat) :
    (search_courses courses query top_k).length ≤ top_k
  ∧ (search_courses courses query top_k).map SearchResult.rank
      = List.range' 1 (search_courses courses query top_k).length
  ∧ ((search_courses courses query top_k).map
        SearchResult.similarity_score).Pairwise (fun a b => b ≤ a)
  ∧ (∀ r ∈ search_courses courses query top_k,
      r.course ∈ courses
        ∧ r.similarity_score
            = simple_search_score query (create_course_text r.course)
        ∧ 0 < r.similarity_score ∧ r.similarity_score ≤ 1)
  ∧ (∀ s : ℚ,
      ((search_courses courses query top_k).map
          (fun r => (r.course, r.similarity_score))).filter (fun y => y.2 = s)
        = ((scoredOf courses query).filter (fun y => y.2 = s)).take
            ((((search_courses courses query top_k).map
                (fun r => (r.course, r.similarity_score))).filter
                  (fun y => y.2 = s)).length))
  ∧ ((search_courses courses query top_k).length < top_k →
      ∀ c ∈ courses, 0 < simple_search_score query (create_course_text c) →
        c ∈ (search_courses courses query top_k).map SearchResult.course)
  ∧ (1 ≤ top_k →
      (∃ c ∈ courses, ∃ t ∈ findWords query,
        t ∈ findWords (create_course_text c)) →
      search_courses courses query top_k ≠ []) := by
  refine ⟨?_, search_map_rank courses query top_k, ?_, ?_, ?_, ?_, ?_⟩
  · rw [search_length]
    exact min_le_left _ _
  · -- sorted by non-increasing score
    have hmap : (search_courses courses query top_k).map
        SearchResult.similarity_score
        = ((sortDesc (scoredOf courses query)).take top_k).map
            (fun y => y.2) := by
      rw [← search_map_pair, List.map_map]
      rfl
    rw [hmap, List.pairwise_map]
    exact (pairwise_sortDesc _).sublist (List.take_sublist _ _)
  · -- member characterisation and score bounds
    intro r hr
    have hpair : (r.course, r.similarity_score)
        ∈ (sortDesc (scoredOf courses query)).take top_k := by
      rw [← search_map_pair]
      exact List.mem_map_of_mem _ hr
    have hmem : (r.course, r.similarity_score) ∈ scoredOf courses query :=
      mem_sortDesc.mp (List.take_subset _ _ hpair)
    obtain ⟨hc, hs, hpos⟩ := mem_scoredOf.mp hmem
    exact ⟨hc, hs, hpos, hs ▸ simple_search_score_le_one _ _⟩
  · -- stability: equal scores keep original store order
    intro s
    rw [search_map_pair]
    rw [← sortDesc_filter_score (scoredOf courses query) s]
    have hsplit : (sortDesc (scoredOf courses query)).filter (fun y => y.2 = s)
        = ((sortDesc (scoredOf courses query)).take top_k).filter
            (fun y => y.2 = s)
          ++ ((sortDesc (scoredOf courses query)).drop top_k).filter
            (fun y => y.2 = s) := by
      rw [← List.filter_append, List.take_append_drop]
    rw [hsplit, List.take_left]
  · -- when fewer than top_k results, every positive-score course is kept
    intro hlt c hc hpos
    rw [search_length] at hlt
    have hlen : (sortDesc (scoredOf courses query)).length < top_k := by
      omega
    have htake : (sortDesc (scoredOf courses query)).take top_k
        = sortDesc (scoredOf courses query) :=
      List.take_of_length_le (le_of_lt hlen)
    have hmem : (c, simple_search_score query (create_course_text c))
        ∈ (sortDesc (scoredOf courses query)).take top_k := by
      rw [htake]
      exact mem_sortDesc.mpr (mem_scoredOf.mpr ⟨hc, rfl, hpos⟩)
    rw [← search_map_pair] at hmem
    obtain ⟨r, hr, hrc⟩ := List.mem_map.mp hmem
    injection hrc with h1 h2
    exact h1 ▸ List.mem_map_of_mem _ hr
  · -- non-emptiness under a token match and positive top_k
    intro hk hmatch
    obtain ⟨c, hc, t, ht, htc⟩ := hmatch
    have hpos : 0 < simple_search_score query (create_course_text c) :=
      simple_search_score_pos_of_common ht htc
    have hmem : (c, simple_search_score query (create_course_text c))
        ∈ scoredOf courses query :=
      mem_scoredOf.mpr ⟨hc, rfl, hpos⟩
    have hXpos : 0 < (scoredOf courses query).length :=
      List.length_pos.mpr (List.ne_nil_of_mem hmem)
    have hLpos : 0 < (sortDesc (scoredOf courses query)).length := by
      rw [sortDesc_length]
      exact hXpos
    have hRlen : 0 < (search_courses courses query top_k).length := by
      rw [search_length]
      omega
    exact List.ne_nil_of_length_pos hRlen

/-- C4 counterexample: with `top_k = 0` the store is non-empty and a
query token matches a course, yet the search returns the empty list, so
the non-emptiness conjunct of the claim as stated (quantifying over all
`top_k`) fails. -/
theorem claim_C4_counterexample :
    [exCourse2] ≠ ([] : List Course)
  ∧ (∃ c ∈ [exCourse2], ∃ t ∈ findWords "basics",
        t ∈ findWords (create_course_text c))
  ∧ search_courses [exCourse2] "basics" 0 = [] := by
  refine ⟨by simp, ⟨exCourse2, by simp, "basics", by decide, by decide⟩, ?_⟩
  simp [search_courses]

/-- Witness for C4 at a concrete store, query and `top_k = 1`. -/
theorem claim_C4_witness :
    search_courses [exCourse2] "basics" 1 ≠ [] :=
  (claim_C4 [exCourse2] "basics" 1).2.2.2.2.2.2 (by norm_num)
    ⟨exCourse2, by simp, "basics", by decide, by decide⟩

/-- Evaluation rule for the lexical score in terms of the common-token
count `n` and the query token count `m`. -/
theorem simple_search_score_eval (q t : String) (n m : Nat) (sub : Bool)
    (hn : ((findWords q).dedup.filter fun w => w ∈ findWords t).length = n)
    (hm : (findWords q).dedup.length = m) (hm0 : m ≠ 0)
    (hs : substrB (pyLower q).toList (pyLower t).toList = sub) :
    simple_search_score q t
      = min (if sub then (n : ℚ) / m + 3/10 else (n : ℚ) / m) 1 := by
  unfold simple_search_score
  have hne : ((findWords q).dedup).isEmpty = false := by
    rcases h : ((findWords q).dedup).isEmpty with _ | _
    · rfl
    · rw [List.isEmpty_iff] at h
      rw [h] at hm
      simp at hm
      exact absurd hm.symm hm0
  simp only [hne, Bool.false_eq_true, if_false, hn, hm, hs]

/-- Python truthiness of a string is emptiness of the string. -/
theorem string_isEmpty_eq_decide (s : String) :
    s.isEmpty = decide (s = "") := by
  rcases eq_or_ne s "" with h | h
  · subst h
    decide
  · have h2 : ¬ (s.isEmpty = true) := fun hh => h ((String.isEmpty_iff s).mp hh)
    simp [h, h2]

/-- C2: `get_recommendations` searches with the space-joined query
(interests, then background if non-empty, then skill level if
non-empty) for `2 * top_k` candidates, hard-filters by difficulty when
the skill level is one of Beginner/Intermediate/Advanced
case-insensitively, and truncates to the first `top_k`; hence at most
`top_k` results, and with `skill_level = "Beginner"` only courses of
difficulty Beginner (case-insensitive) are returned. -/
theorem claim_C2 (courses : List Course)
    (user_interests user_background skill_level : String) (top_k : Nat) :
    get_recommendations courses user_interests user_background skill_level top_k
      = (if pyLower skill_level ∈ ["beginner", "intermediate", "advanced"] then
          (search_courses courses
            (String.intercalate " "
              ([user_interests]
                ++ (if user_background = "" then [] else [user_background])
                ++ (if skill_level = "" then [] else [skill_level])))
            (2 * top_k)).filter
              (fun r => pyLower r.course.difficulty = pyLower skill_level)
        else
          search_courses courses
            (String.intercalate " "
              ([user_interests]
                ++ (if user_background = "" then [] else [user_background])
                ++ (if skill_level = "" then [] else [skill_level])))
            (2 * top_k)).take top_k
  ∧ (get_recommendations courses user_interests user_background skill_level
        top_k).length ≤ top_k
  ∧ (∀ r ∈ get_recommendations courses user_interests user_background
        "Beginner" top_k, pyLower r.course.difficulty = pyLower "Beginner") := by
  have hquery : ∀ sl : String, recQuery user_interests user_background sl
      = String.intercalate " "
          ([user_interests]
            ++ (if user_background = "" then [] else [user_background])
            ++ (if sl = "" then [] else [sl])) := by
    intro sl
    unfold recQuery
    rw [string_isEmpty_eq_decide, string_isEmpty_eq_decide]
    rcases eq_or_ne user_background "" with h | h <;>
      rcases eq_or_ne sl "" with h2 | h2 <;> simp [h, h2]
  have hcond : ∀ sl : String,
      (!sl.isEmpty && (pyLower sl ∈ skillLevels))
        = (pyLower sl ∈ ["beginner", "intermediate", "advanced"] : Bool) := by
    intro sl
    rcases h : sl.isEmpty with _ | _
    · simp [skillLevels, h]
    · have h2 : sl = "" := (String.isEmpty_iff sl).mp h
      subst h2
      decide
  have hmain : ∀ sl : String,
      get_recommendations courses user_interests user_background sl top_k
        = (if pyLower sl ∈ ["beginner", "intermediate", "advanced"] then
            (search_courses courses (recQuery user_interests user_background sl)
              (2 * top_k)).filter
                (fun r => pyLower r.course.difficulty = pyLower sl)
          else
            search_courses courses (recQuery user_interests user_background sl)
              (2 * top_k)).take top_k := by
    intro sl
    simp only [get_recommendations, hcond sl, Nat.mul_comm top_k 2,
      decide_eq_true_eq]
  refine ⟨by rw [hmain skill_level, hquery skill_level], ?_, ?_⟩
  · rw [hmain skill_level]
    exact List.length_take_le _ _
  · intro r hr
    rw [hmain "Beginner"] at hr
    have hr2 := List.take_subset _ _ hr
    rw [if_pos (by decide)] at hr2
    exact of_decide_eq_true (List.mem_filter.mp hr2).2

/-- Witness for C2: the concrete Beginner recommendation satisfies the
difficulty guarantee. -/
theorem claim_C2_witness :
    pyLower ((⟨exCourse2, 1, 1⟩ : SearchResult).course.difficulty)
      = pyLower "Beginner" := by
  have hs : simple_search_score (recQuery "basics" "" "Beginner")
      (create_course_text exCourse2) = 1 := by
    rw [simple_search_score_eval _ _ 2 2 false (by decide) (by decide)
      (by decide) (by decide)]
    norm_num
  have heval : get_recommendations [exCourse2] "basics" "" "Beginner" 1
      = [⟨exCourse2, 1, 1⟩] := by
    norm_num [get_recommendations, search_courses, scoredOf, sortDesc,
      insertDesc, hs, skillLevels, List.filterMap, List.enum, List.enumFrom,
      show pyLower "Beginner" = "beginner" from by decide,
      show "Beginner".isEmpty = false from by decide,
      show pyLower (Course.difficulty exCourse2) = "beginner" from by decide]
  exact (claim_C2 [exCourse2] "basics" "" "Beginner" 1).2.2
    ⟨exCourse2, 1, 1⟩ (by rw [heval]; exact List.mem_singleton.mpr rfl)

/-- Concrete evaluation: recommendations for the two-course example keep
the rank assigned by the underlying search (rank 2 survives). -/
theorem get_recommendations_ex_eval :
    get_recommendations [exCourse1, exCourse2] "alpha" "" "Beginner" 2
      = [⟨exCourse2, 1/2, 2⟩] := by
  have hs1 : simple_search_score (recQuery "alpha" "" "Beginner")
      (create_course_text exCourse1) = 1 := by
    rw [simple_search_score_eval _ _ 2 2 true (by decide) (by decide)
      (by decide) (by decide)]
    norm_num
  have hs2 : simple_search_score (recQuery "alpha" "" "Beginner")
      (create_course_text exCourse2) = 1/2 := by
    rw [simple_search_score_eval _ _ 1 2 false (by decide) (by decide)
      (by decide) (by decide)]
    norm_num
  norm_num [get_recommendations, search_courses, scoredOf, sortDesc,
    insertDesc, hs1, hs2, skillLevels, List.filterMap, List.enum,
    List.enumFrom,
    show pyLower "Beginner" = "beginner" from by decide,
    show "Beginner".isEmpty = false from by decide,
    show pyLower (Course.difficulty exCourse1) = "advanced" from by decide,
    show pyLower (Course.difficulty exCourse2) = "beginner" from by decide]
  rw [List.filter_cons, List.filter_cons, List.filter_nil]
  norm_num [show pyLower exCourse1.difficulty = "advanced" from by decide,
    show pyLower exCourse2.difficulty = "beginner" from by decide]
  rw [if_neg (by decide)]
  rfl

/-- C10: recommendations are not re-ranked: every returned entry occurs
verbatim (including its `rank`) in the underlying search over `2 * top_k`
candidates, and in the concrete two-course example the surviving
recommendation carries rank 2 — non-contiguous and not starting at 1. -/
theorem claim_C10 :
    (∀ (courses : List Course) (ui ub sl : String) (k : Nat),
      ∀ r ∈ get_recommendations courses ui ub sl k,
        r ∈ search_courses courses (recQuery ui ub sl) (k * 2))
  ∧ (get_recommendations [exCourse1, exCourse2] "alpha" "" "Beginner" 2).map
      SearchResult.rank = [2] := by
  constructor
  · intro courses ui ub sl k r hr
    unfold get_recommendations at hr
    have hr2 := List.take_subset _ _ hr
    by_cases hc : (!sl.isEmpty && (pyLower sl ∈ skillLevels) : Bool) = true
    · rw [if_pos hc] at hr2
      exact List.mem_of_mem_filter hr2
    · rw [if_neg hc] at hr2
      exact hr2
  · rw [get_recommendations_ex_eval]
    rfl

/-- Witness for C10 at the concrete two-course store. -/
theorem claim_C10_witness :
    (⟨exCourse2, 1/2, 2⟩ : SearchResult)
      ∈ search_courses [exCourse1, exCourse2]
          (recQuery "alpha" "" "Beginner") (2 * 2) :=
  claim_C10.1 [exCourse1, exCourse2] "alpha" "" "Beginner" 2 _
    (by rw [get_recommendations_ex_eval]; exact List.mem_singleton.mpr rfl)

/-- C5 counterexample: with the non-empty requested skill list
`["python"]` the course `exCourse2` (skills `["basics"]`) is dropped,
so the skills criterion is not an emptiness check that retains every
course. -/
theorem claim_C5_counterexample :
    truthyList (some ["python"]) = true
  ∧ filter_courses [exCourse2] none none (some ["python"]) = [] := by
  constructor
  · decide
  · decide

/-- C5 (amended): the skills criterion is a genuine case-insensitive
intersection test — with a non-empty requested skill list a course is
retained exactly when one of its own skills, lowercased, occurs in the
lowercased requested list. -/
theorem claim_C5 (courses : List Course) (skills : List String)
    (h : skills ≠ []) :
    filter_courses courses none none (some skills)
      = courses.filter
          (fun c => c.skills.any fun sk => pyLower sk ∈ skills.map pyLower) := by
  unfold filter_courses
  have ht : truthyList (some skills) = true := by
    unfold truthyList
    rcases he : skills.isEmpty with _ | _
    · simp [he]
    · exact absurd (List.isEmpty_iff.mp he) h
  simp [truthyStr, ht]

/-- Witness for C5 at a concrete store and skill list. -/
theorem claim_C5_witness :
    ["ALPHA"] ≠ ([] : List String)
  ∧ filter_courses [exCourse1] none none (some ["ALPHA"])
      = [exCourse1].filter
          (fun c => c.skills.any fun sk => pyLower sk ∈ ["ALPHA"].map pyLower) :=
  ⟨by decide, claim_C5 [exCourse1] ["ALPHA"] (by decide)⟩

/-- C6: `filter_courses` returns the order-preserving subsequence of
courses satisfying the conjunction of the provided criteria (category
and difficulty case-insensitively, skills by case-insensitive overlap),
omitted criteria being no-ops; with all criteria omitted the result is
the stored list itself. -/
theorem claim_C6 (courses : List Course)
    (category difficulty : Option String) (skills : Option (List String)) :
    filter_courses courses category difficulty skills
      = courses.filter (fun c =>
          (!truthyStr category
            || (pyLower c.category = pyLower (category.getD "")))
          && (!truthyStr difficulty
            || (pyLower c.difficulty = pyLower (difficulty.getD "")))
          && (!truthyList skills
            || c.skills.any fun sk =>
                pyLower sk ∈ (skills.getD []).map pyLower))
  ∧ List.Sublist (filter_courses courses category difficulty skills) courses
  ∧ filter_courses courses none none none = courses := by
  have hmain : filter_courses courses category difficulty skills
      = courses.filter (fun c =>
          (!truthyStr category
            || (pyLower c.category = pyLower (category.getD "")))
          && (!truthyStr difficulty
            || (pyLower c.difficulty = pyLower (difficulty.getD "")))
          && (!truthyList skills
            || c.skills.any fun sk =>
                pyLower sk ∈ (skills.getD []).map pyLower)) := by
    unfold filter_courses
    rcases hc : truthyStr category with _ | _ <;>
      rcases hd : truthyStr difficulty with _ | _ <;>
        rcases hs : truthyList skills with _ | _ <;>
          simp [List.filter_filter, Bool.and_comm, Bool.and_assoc,
            Bool.and_left_comm]
  refine ⟨hmain, ?_, ?_⟩
  · rw [hmain]
    exact List.filter_sublist _
  · rfl

/-- C8: `get_course_by_id` returns the first stored course whose id
equals the given string, and returns `none` exactly when no stored
course has that id; it is total (never raises) and never fabricates a
course. -/
theorem claim_C8 (courses : List Course) (cid : String) :
    (∀ c, get_course_by_id courses cid = some c →
        c.id = cid ∧ ∃ pre suf, courses = pre ++ c :: suf
          ∧ ∀ d ∈ pre, d.id ≠ cid)
  ∧ (get_course_by_id courses cid = none ↔ ∀ c ∈ courses, c.id ≠ cid) := by
  induction courses with
  | nil =>
      constructor
      · intro c hc
        simp [get_course_by_id] at hc
      · simp [get_course_by_id]
  | cons a rest ih =>
      by_cases ha : a.id = cid
      · constructor
        · intro c hc
          rw [get_course_by_id, if_pos ha] at hc
          obtain rfl := Option.some.inj hc
          exact ⟨ha, [], rest, rfl, by simp⟩
        · rw [get_course_by_id, if_pos ha]
          constructor
          · intro h
            exact absurd h (by simp)
          · intro h
            exact absurd ha (h a (List.mem_cons_self a rest))
      · constructor
        · intro c hc
          rw [get_course_by_id, if_neg ha] at hc
          obtain ⟨h1, pre, suf, h2, h3⟩ := ih.1 c hc
          refine ⟨h1, a :: pre, suf, by rw [h2]; rfl, ?_⟩
          intro d hd
          rcases List.mem_cons.mp hd with rfl | hd
          · exact ha
          · exact h3 d hd
        · rw [get_course_by_id, if_neg ha]
          rw [ih.2]
          constructor
          · intro h c hc
            rcases List.mem_cons.mp hc with rfl | hc
            · exact ha
            · exact h c hc
          · intro h c hc
            exact h c (List.mem_cons_of_mem a hc)

/-- Witness for C8: a hit on the second stored course and a miss on an
unknown id. -/
theorem claim_C8_witness :
    (exCourse2.id = "c2" ∧ ∃ pre suf,
        [exCourse1, exCourse2] = pre ++ exCourse2 :: suf
          ∧ ∀ d ∈ pre, d.id ≠ "c2")
  ∧ get_course_by_id [exCourse1] "zzz" = none :=
  ⟨(claim_C8 [exCourse1, exCourse2] "c2").1 exCourse2 (by decide),
   (claim_C8 [exCourse1] "zzz").2.mpr (by decide)⟩

/-- C7: the query-time `try/except` of `search_courses` maps any raised
internal error to the empty list and passes normal results through
unchanged, while `load_courses` re-raises a missing file and malformed
JSON — it only ever succeeds with the course list actually present in
the parsed file, so no silently empty store is constructed. -/
theorem claim_C7 :
    (∀ e : String, search_courses_guarded (Except.error e) = [])
  ∧ (∀ r : List SearchResult, search_courses_guarded (Except.ok r) = r)
  ∧ (∀ (f : CourseFile) (cs : List Course),
      load_courses f = Except.ok cs → f = CourseFile.parsed (some cs))
  ∧ (∃ e, load_courses CourseFile.missing = Except.error e)
  ∧ (∃ e, load_courses CourseFile.malformed = Except.error e) := by
  refine ⟨fun e => rfl, fun r => rfl, ?_, ⟨_, rfl⟩, ⟨_, rfl⟩⟩
  intro f cs h
  cases f with
  | missing => simp [load_courses] at h
  | malformed => simp [load_courses] at h
  | parsed o =>
      cases o with
      | none => simp [load_courses] at h
      | some cs2 =>
          simp [load_courses] at h
          rw [h]

/-- Witness for C7: `load_courses` succeeds exactly on the parsed file
carrying that store. -/
theorem claim_C7_witness :
    CourseFile.parsed (some [exCourse1])
      = CourseFile.parsed (some [exCourse1]) :=
  claim_C7.2.2.1 (CourseFile.parsed (some [exCourse1])) [exCourse1] rfl

/-- C1 (code bug): in the result loop of the embedding matcher the guard
`idx < len(courses)` does skip positions at or beyond the course count
(second conjunct), but it does not skip the `-1` "no match"
sentinel: Python negative indexing dereferences the LAST stored course,
which is returned as a spurious extra result (first conjunct, where the
sentinel hit at position 1 yields `exCourse2`, the last course).  On an
empty store the sentinel raises `IndexError`, which the `except` turns
into the empty list (third conjunct). -/
theorem claim_C1 :
    embed_search_courses [exCourse1, exCourse2] [(9/10, 0), (1/2, -1)]
      = [⟨exCourse1, 9/10, 1⟩, ⟨exCourse2, 1/2, 2⟩]
  ∧ embed_search_courses [exCourse1] [(1, 0), (0, 5)]
      = [⟨exCourse1, 1, 1⟩]
  ∧ embed_search_courses ([] : List Course) [(0, -1)] = [] := by
  refine ⟨rfl, rfl, rfl⟩

/-- The scoring loop only ever appends to the heap. -/
theorem scoreAlloc_extends (q : String) (rs : List Nat) (h : List Cell) :
    ∃ ext, (scoreAlloc q rs h).1 = h ++ ext := by
  induction rs generalizing h with
  | nil => exact ⟨[], by simp [scoreAlloc]⟩
  | cons r rest ih =>
      rw [scoreAlloc]
      split
      · obtain ⟨ext1, hext1⟩ := ih (h ++ [_])
        exact ⟨_ :: ext1, by rw [hext1, List.append_assoc]; rfl⟩
      · exact ih h

/-- Every candidate address produced by the scoring loop is a fresh
address, at or beyond the original heap size. -/
theorem scoreAlloc_refs_ge (q : String) (rs : List Nat) (h : List Cell) :
    ∀ p ∈ (scoreAlloc q rs h).2, h.length ≤ p.1 := by
  induction rs generalizing h with
  | nil => simp [scoreAlloc]
  | cons r rest ih =>
      rw [scoreAlloc]
      split
      · intro p hp
        rcases List.mem_cons.mp hp with rfl | hp
        · exact le_refl _
        · have := ih (h ++ [_]) p hp
          rw [List.length_append] at this
          omega
      · exact ih h

theorem mem_insertDescA {x y : Nat × ℚ} {l : List (Nat × ℚ)} :
    y ∈ insertDescA x l → y = x ∨ y ∈ l := by
  induction l with
  | nil => simp [insertDescA]
  | cons z zs ih =>
      by_cases hc : x.2 < z.2
      · rw [insertDescA, if_pos hc]
        intro hy
        rcases List.mem_cons.mp hy with rfl | hy
        · exact Or.inr (List.mem_cons_self _ _)
        · rcases ih hy with h1 | h1
          · exact Or.inl h1
          · exact Or.inr (List.mem_cons_of_mem _ h1)
      · rw [insertDescA, if_neg hc]
        intro hy
        rcases List.mem_cons.mp hy with rfl | hy
        · exact Or.inl rfl
        · exact Or.inr hy

theorem mem_sortDescA {y : Nat × ℚ} {l : List (Nat × ℚ)} :
    y ∈ sortDescA l → y ∈ l := by
  induction l with
  | nil => simp [sortDescA]
  | cons z zs ih =>
      rw [sortDescA]
      intro hy
      rcases mem_insertDescA hy with rfl | hy
      · exact List.mem_cons_self _ _
      · exact List.mem_cons_of_mem _ (ih hy)

/-- Writing ranks into addresses at or beyond `n` leaves every earlier
heap cell untouched. -/
theorem writeRanks_preserve (lst : List (Nat × ℚ)) (j : Nat) (h : List Cell)
    (n : Nat) (hge : ∀ p ∈ lst, n ≤ p.1) :
    ∀ i, i < n → (writeRanks lst j h)[i]? = h[i]? := by
  induction lst generalizing j h with
  | nil => intro i _; rfl
  | cons p rest ih =>
      intro i hi
      obtain ⟨r, sc⟩ := p
      rw [writeRanks]
      have hrest : ∀ q ∈ rest, n ≤ q.1 := fun q hq =>
        hge q (List.mem_cons_of_mem _ hq)
      rw [ih _ _ hrest i hi]
      have hr : n ≤ r := hge (r, sc) (List.mem_cons_self _ _)
      exact List.getElem?_set_ne (by omega)

/-- C9: search at heap level never changes a pre-existing cell: it
copies before attaching `similarity_score`, and writes `rank` only into
the fresh copies; `get_recommendations` inherits this, and the id lookup
and filtering perform no writes at all. -/
theorem claim_C9 (h : List Cell) (store : List Nat)
    (query ui ub sl cid : String) (top_k : Nat)
    (category difficulty : Option String)
    (skills : Option (List String)) :
    (∀ i, i < h.length →
        (search_courses_heap h store query top_k).1[i]? = h[i]?)
  ∧ (∀ i, i < h.length →
        (get_recommendations_heap h store ui ub sl top_k).1[i]? = h[i]?)
  ∧ (get_course_by_id_heap h store cid).1 = h
  ∧ (filter_courses_heap h store category difficulty skills).1 = h := by
  have hsearch : ∀ (q : String) (k : Nat) (i : Nat), i < h.length →
      (search_courses_heap h store q k).1[i]? = h[i]? := by
    intro q k i hi
    rw [search_courses_heap]
    have hge : ∀ p ∈ (sortDescA (scoreAlloc q store h).2).take k,
        h.length ≤ p.1 := by
      intro p hp
      exact scoreAlloc_refs_ge q store h p
        (mem_sortDescA (List.take_subset _ _ hp))
    rw [writeRanks_preserve _ _ _ h.length hge i hi]
    obtain ⟨ext, hext⟩ := scoreAlloc_extends q store h
    rw [hext]
    exact List.getElem?_append_left hi
  refine ⟨fun i hi => hsearch query top_k i hi, ?_, rfl, ?_⟩
  · intro i hi
    rw [get_recommendations_heap]
    exact hsearch _ _ i hi
  · unfold filter_courses_heap
    rcases truthyList skills with _ | _ <;> simp

/-- Witness for C9 at a concrete one-cell heap. -/
theorem claim_C9_witness :
    (search_courses_heap [⟨exCourse1, none, none⟩] [0] "alpha" 1).1[0]?
      = ([⟨exCourse1, none, none⟩] : List Cell)[0]? :=
  (claim_C9 [⟨exCourse1, none, none⟩] [0] "alpha" "" "" "" "x" 1
    none none none).1 0 (by simp)

end CourseBot
